import Mathlib

/-!
Verification of the rounded-rectangle / toast-background rasterizer.

This file gives a shallow embedding of two rendering routines of the
repository and proves the specified properties about them:

* `mgba_toast_background` (teek-mgba/ext/teek_mgba/teek_mgba.c, lines
  543-622): the anti-aliased signed-distance-field toast-background
  rasterizer.  Its 32-bit float arithmetic is embedded as exact real
  arithmetic (`ℝ`, with `Real.sqrt` for `sqrtf`); the C cast
  `(uint8_t)(e)` of the nonnegative in-range channel values is embedded
  as `Int.floor` followed by `Int.toNat` (C float-to-unsigned conversion
  truncates toward zero, and every converted value here lies in
  `[0, 256)`, which the lemmas below establish).

* `renderer_fill_rounded_rect` (teek-sdl2/ext/teek_sdl2/sdl2surface.c,
  lines 212-272): the midpoint-circle rounded-rectangle fill.  It is
  embedded as the list of drawing primitives (fill rectangles and
  horizontal line spans) that the routine hands to SDL, together with
  the set of pixels those primitives cover.  The C `while` loop is a
  fuel-indexed structural recursion; the fuel `rad + 2` strictly exceeds
  the number of iterations (`dy` starts at `0`, increases by one per
  iteration, and the loop exits once `dy > dx` with `dx ≤ rad`), so the
  out-of-fuel branch is never taken on the calls the driver makes.

Division on `ℤ` in this file only occurs as `w / 2`, `h / 2`,
`min w h / 2` on values that are positive on every path where the
source executes the division (the C code returns before dividing when
`w <= 0 || h <= 0`, resp. `rad <= 0`), so Lean's integer division
agrees with C's truncating division at every use.
-/

/-! ### Toast palette (teek_mgba.c lines 531-535) -/

abbrev TOAST_FILL_R : ℕ := 20
abbrev TOAST_FILL_G : ℕ := 20
abbrev TOAST_FILL_B : ℕ := 28
abbrev TOAST_FILL_A : ℕ := 180
abbrev TOAST_BDR_R : ℕ := 100
abbrev TOAST_BDR_G : ℕ := 110
abbrev TOAST_BDR_B : ℕ := 140
abbrev TOAST_BDR_A : ℕ := 210

/-- ARGB8888 packing, `toast_argb` (teek_mgba.c lines 537-541):
`((uint32_t)a << 24) | ((uint32_t)r << 16) | ((uint32_t)g << 8) | (uint32_t)b`. -/
def toast_argb (a r g b : ℕ) : ℕ :=
  a <<< 24 ||| r <<< 16 ||| g <<< 8 ||| b

/-- Alpha channel of a packed ARGB8888 word (the most significant byte). -/
def argb_alpha (c : ℕ) : ℕ := c >>> 24

/-- Radius clamping of `mgba_toast_background` (teek_mgba.c lines 552-554):
`if (rad < 0) rad = 0; if (rad > w / 2) rad = w / 2; if (rad > h / 2) rad = h / 2;`. -/
def toastRadClamp (w h rad : ℤ) : ℤ :=
  let r0 := if rad < 0 then 0 else rad
  let r1 := if r0 > w / 2 then w / 2 else r0
  if r1 > h / 2 then h / 2 else r1

/-- The C cast `(uint8_t)(e)` for a float `e`: conversion truncates toward
zero; every use in the rasterizer has `0 ≤ e < 256`, where truncation
coincides with `Int.floor`. -/
noncomputable def truncU8 (x : ℝ) : ℕ := (Int.floor x).toNat

/-- Corner-relative coordinate of a pixel center (teek_mgba.c lines 573-580):
`cx = px + 0.5f`, `hw = w * 0.5f`, `qx = fabsf(cx - hw) - (hw - frad)`
(likewise for the y axis). -/
noncomputable def foldQ (size frad : ℝ) (p : ℕ) : ℝ :=
  |((p : ℝ) + 0.5) - size * 0.5| - (size * 0.5 - frad)

/-- The per-pixel signed-distance computation (teek_mgba.c lines 582-588),
on corner-relative coordinates `qx, qy`:
`mx = qx > 0 ? qx : 0`, `my = qy > 0 ? qy : 0`,
`outside = sqrtf(mx*mx + my*my)`,
`dist = outside + (outside > 0 ? 0 : max(qx,qy)) - frad`.
(The local `inside` of lines 586-587 is computed but never used by the C
code and is omitted.) -/
noncomputable def distCode (qx qy frad : ℝ) : ℝ :=
  let mx := max qx 0
  let my := max qy 0
  let outside := Real.sqrt (mx * mx + my * my)
  outside + (if outside > 0 then 0 else max qx qy) - frad

/-- Signed distance of the pixel center `(px + 0.5, py + 0.5)` for the
shape parameters of `mgba_toast_background` (after radius clamping,
`frad = (float)rad`). -/
noncomputable def toastDist (w h rad : ℤ) (px py : ℕ) : ℝ :=
  let frad : ℝ := ((toastRadClamp w h rad : ℤ) : ℝ)
  distCode (foldQ (w : ℝ) frad px) (foldQ (h : ℝ) frad py) frad

/-- The five-band compositor of `mgba_toast_background`
(teek_mgba.c lines 590-615), with `border_w = 1.5f`, `aa_w = 1.2f`. -/
noncomputable def toastComposite (dist : ℝ) : ℕ :=
  let border_w : ℝ := 1.5
  let aa_w : ℝ := 1.2
  if dist ≥ aa_w * 0.5 then
    0
  else if dist ≥ -aa_w * 0.5 then
    let t : ℝ := 0.5 - dist / aa_w
    let a : ℕ := truncU8 ((TOAST_BDR_A : ℝ) * t + 0.5)
    if a < 8 then 0
    else toast_argb a TOAST_BDR_R TOAST_BDR_G TOAST_BDR_B
  else if dist ≥ -(border_w - aa_w * 0.5) then
    toast_argb TOAST_BDR_A TOAST_BDR_R TOAST_BDR_G TOAST_BDR_B
  else if dist ≥ -(border_w + aa_w * 0.5) then
    let t : ℝ := (dist + border_w + aa_w * 0.5) / aa_w
    let a : ℕ := truncU8 ((TOAST_BDR_A : ℝ) * t + (TOAST_FILL_A : ℝ) * (1 - t) + 0.5)
    let r : ℕ := truncU8 ((TOAST_BDR_R : ℝ) * t + (TOAST_FILL_R : ℝ) * (1 - t) + 0.5)
    let g : ℕ := truncU8 ((TOAST_BDR_G : ℝ) * t + (TOAST_FILL_G : ℝ) * (1 - t) + 0.5)
    let b : ℕ := truncU8 ((TOAST_BDR_B : ℝ) * t + (TOAST_FILL_B : ℝ) * (1 - t) + 0.5)
    toast_argb a r g b
  else
    toast_argb TOAST_FILL_A TOAST_FILL_R TOAST_FILL_G TOAST_FILL_B

/-- The packed ARGB word `mgba_toast_background` stores for pixel
`(px, py)` (geometry kernel followed by compositor). -/
noncomputable def toastPixel (w h rad : ℤ) (px py : ℕ) : ℕ :=
  toastComposite (toastDist w h rad px py)

/-- Output of `mgba_toast_background(w, h, rad)` (teek_mgba.c lines
543-622) as the row-major list of packed 32-bit ARGB words: empty for
degenerate sizes (line 551), otherwise one word per pixel, iterating
`py` over rows and `px` over columns, the word for `(px, py)` at flat
index `py * w + px` (line 617). -/
noncomputable def mgba_toast_background (w h rad : ℤ) : List ℕ :=
  if w ≤ 0 ∨ h ≤ 0 then []
  else (List.range h.toNat).flatMap fun py =>
    (List.range w.toNat).map fun px => toastPixel w h rad px py

/-! ### Spec-side definitions for the SDF refinement claim (spec §4.1) -/

/-- Modelled from the spec (§4.1): the standard exact rounded-box SDF,
`length(max(qx,0), max(qy,0)) + min(max(qx,qy), 0) − radius`. -/
noncomputable def distSpecFormula (qx qy frad : ℝ) : ℝ :=
  Real.sqrt (max qx 0 ^ 2 + max qy 0 ^ 2) + min (max qx qy) 0 - frad

/-- Euclidean distance from a point to the shrunken "core" rectangle of
the rounded box, in corner-relative coordinates: zero when `qx ≤ 0` and
`qy ≤ 0` (point inside or beside the core), otherwise the distance to
the nearest core corner/edge. -/
noncomputable def coreDist (qx qy : ℝ) : ℝ :=
  Real.sqrt (max qx 0 ^ 2 + max qy 0 ^ 2)

/-- The closed rounded box is the set of points within distance `frad`
of the core rectangle (Minkowski sum with the closed disc); a point is
strictly inside iff it is within distance `< frad` of the core, or in
the open core itself (`qx < 0 ∧ qy < 0`, which covers the core interior
when `frad = 0`). -/
def insideRoundedBox (qx qy frad : ℝ) : Prop :=
  coreDist qx qy < frad ∨ (qx < 0 ∧ qy < 0)

/-- On the rounded-box boundary: in the closed rounded box but not
strictly inside it. -/
def onRoundedBoxBoundary (qx qy frad : ℝ) : Prop :=
  coreDist qx qy ≤ frad ∧ ¬ insideRoundedBox qx qy frad

/-- Strictly outside the closed rounded box. -/
def outsideRoundedBox (qx qy frad : ℝ) : Prop :=
  frad < coreDist qx qy

/-! ### Midpoint-circle rounded-rectangle fill (sdl2surface.c) -/

/-- Drawing primitives `renderer_fill_rounded_rect` hands to SDL: solid
rectangles (`SDL_RenderFillRect`) and horizontal line spans
(`SDL_RenderDrawLine` with equal y endpoints — every line the fill
routine draws is horizontal). -/
inductive SDLPrim where
  | fillRect (x y w h : ℤ)
  | hline (x1 x2 y : ℤ)
deriving DecidableEq

/-- Pixels covered by one primitive: an SDL fill rect covers
`[x, x+w) × [y, y+h)` (nothing when `w ≤ 0` or `h ≤ 0`); a horizontal
line covers both endpoints and everything between. -/
def primPaints : SDLPrim → ℤ × ℤ → Bool
  | .fillRect x y w h, p =>
      decide (x ≤ p.1 ∧ p.1 < x + w ∧ y ≤ p.2 ∧ p.2 < y + h)
  | .hline x1 x2 y, p =>
      decide (p.2 = y ∧ min x1 x2 ≤ p.1 ∧ p.1 ≤ max x1 x2)

/-- Pixels covered by a list of primitives. -/
def paintedBy (l : List SDLPrim) (p : ℤ × ℤ) : Bool :=
  l.any fun pr => primPaints pr p

/-- Radius clamping of `renderer_fill_rounded_rect` (sdl2surface.c lines
237-238), reached only when `rad > 0`:
`if (rad > w / 2) rad = w / 2; if (rad > h / 2) rad = h / 2;`. -/
def fillRoundedRectRad (w h rad : ℤ) : ℤ :=
  let r1 := if rad > w / 2 then w / 2 else rad
  if r1 > h / 2 then h / 2 else r1

/-- The corner quarter-circle loop of `renderer_fill_rounded_rect`
(sdl2surface.c lines 247-268): midpoint-circle stepping
(`dx = rad, dy = 0, err = 1 - rad`), emitting four horizontal spans per
step (eight when `dx != dy`), then `dy++` and the `err` update.  The C
`while (dx >= dy)` loop is driven by `fuel`, which callers choose
strictly larger than the iteration count. -/
def arcFillSpans (fuel : ℕ) (cxl cxr cyt cyb dx dy err : ℤ) : List SDLPrim :=
  match fuel with
  | 0 => []
  | fuel + 1 =>
    if dx ≥ dy then
      ([.hline (cxl - dx) cxl (cyt - dy), .hline cxr (cxr + dx) (cyt - dy),
        .hline (cxl - dx) cxl (cyb + dy), .hline cxr (cxr + dx) (cyb + dy)] ++
       (if dx ≠ dy then
          [.hline (cxl - dy) cxl (cyt - dx), .hline cxr (cxr + dy) (cyt - dx),
           .hline (cxl - dy) cxl (cyb + dx), .hline cxr (cxr + dy) (cyb + dx)]
        else [])) ++
      (if err < 0 then
        arcFillSpans fuel cxl cxr cyt cyb dx (dy + 1) (err + 2 * (dy + 1) + 1)
      else
        arcFillSpans fuel cxl cxr cyt cyb (dx - 1) (dy + 1) (err + 2 * ((dy + 1) - (dx - 1)) + 1))
    else []

/-- The primitives emitted by `renderer_fill_rounded_rect(x, y, w, h,
rad, ...)` (sdl2surface.c lines 231-268): for `rad <= 0` a single solid
rectangle; otherwise the radius is clamped, three body rectangles are
filled (center column, left strip, right strip) and the four corners
are filled by midpoint-circle spans around
`cx_l = x + rad`, `cx_r = x + w - rad - 1`,
`cy_t = y + rad`, `cy_b = y + h - rad - 1`. -/
def fillRoundedRectPrims (x y w h rad : ℤ) : List SDLPrim :=
  if rad ≤ 0 then [.fillRect x y w h]
  else
    let r := fillRoundedRectRad w h rad
    [.fillRect (x + r) y (w - 2 * r) h,
     .fillRect x (y + r) r (h - 2 * r),
     .fillRect (x + w - r) (y + r) r (h - 2 * r)] ++
    arcFillSpans (r.toNat + 2) (x + r) (x + w - r - 1) (y + r) (y + h - r - 1) r 0 (1 - r)

/-- Result of `renderer_fill_rounded_rect`: the one draw color set for
the whole call (`SDL_SetRenderDrawColor(ren, r, g, b, a)`, sdl2surface.c
line 230) paired with the emitted primitives; every painted pixel
receives that color. -/
def renderer_fill_rounded_rect (x y w h rad : ℤ) (r g b a : ℕ) :
    (ℕ × ℕ × ℕ × ℕ) × List SDLPrim :=
  ((r, g, b, a), fillRoundedRectPrims x y w h rad)

/-- A primitive is well-sized when it is a rectangle of nonnegative width
and height, or a span whose endpoints are in order. -/
def primWellSized : SDLPrim → Bool
  | .fillRect _ _ w h => decide (0 ≤ w ∧ 0 ≤ h)
  | .hline x1 x2 _ => decide (x1 ≤ x2)

/-! ### Packing helpers -/

theorem toast_argb_eq (a r g b : ℕ) (hr : r < 256) (hg : g < 256) (hb : b < 256) :
    toast_argb a r g b = a * 2 ^ 24 + r * 2 ^ 16 + g * 2 ^ 8 + b := by
  have hb8 : b < 2 ^ 8 := by omega
  have hgb : 2 ^ 8 * g + b < 2 ^ 16 := by omega
  have hrgb : 2 ^ 16 * r + (2 ^ 8 * g + b) < 2 ^ 24 := by omega
  unfold toast_argb
  rw [Nat.shiftLeft_eq, Nat.shiftLeft_eq, Nat.shiftLeft_eq,
    Nat.or_assoc, Nat.or_assoc,
    Nat.mul_comm g, ← Nat.mul_add_lt_is_or hb8,
    Nat.mul_comm r, ← Nat.mul_add_lt_is_or hgb,
    Nat.mul_comm a, ← Nat.mul_add_lt_is_or hrgb]
  ring

theorem argb_alpha_toast_argb (a r g b : ℕ)
    (hr : r < 256) (hg : g < 256) (hb : b < 256) :
    argb_alpha (toast_argb a r g b) = a := by
  unfold argb_alpha
  rw [Nat.shiftRight_eq_div_pow, toast_argb_eq a r g b hr hg hb]
  omega

theorem toast_argb_lt_two_pow_32 (a r g b : ℕ)
    (ha : a < 256) (hr : r < 256) (hg : g < 256) (hb : b < 256) :
    toast_argb a r g b < 2 ^ 32 := by
  rw [toast_argb_eq a r g b hr hg hb]; omega

theorem truncU8_eq (x : ℝ) (n : ℕ) (h1 : (n : ℝ) ≤ x) (h2 : x < n + 1) :
    truncU8 x = n := by
  unfold truncU8
  have hf : Int.floor x = (n : ℤ) := by
    rw [Int.floor_eq_iff]
    constructor
    · exact_mod_cast h1
    · push_cast; linarith
  rw [hf]; simp

/-! ### Claim theorems: driver-level properties -/

theorem toastRadClamp_eq (w h rad : ℤ) (hw : 0 < w) (hh : 0 < h) :
    toastRadClamp w h rad = min (max rad 0) (min w h / 2) := by
  simp only [toastRadClamp]
  split_ifs <;> omega

/-- Claim C4: the toast-background output depends on the requested radius
only through its clamp into `[0, min(w,h)/2]`; an out-of-range radius is
silently reduced, never rejected. -/
theorem toast_radius_clamp_equiv (w h rad : ℤ) (hw : 0 < w) (hh : 0 < h) :
    mgba_toast_background w h rad
      = mgba_toast_background w h (min (max rad 0) (min w h / 2)) := by
  have key : toastRadClamp w h (min (max rad 0) (min w h / 2)) = toastRadClamp w h rad := by
    rw [toastRadClamp_eq w h _ hw hh, toastRadClamp_eq w h rad hw hh]
    omega
  simp only [mgba_toast_background, toastPixel, toastDist, key]

theorem toast_radius_clamp_equiv_witness :
    mgba_toast_background 40 20 1000 = mgba_toast_background 40 20 10 := by
  have h := toast_radius_clamp_equiv 40 20 1000 (by norm_num) (by norm_num)
  norm_num at h
  exact h

/-- Claim C7: non-positive width or height yields an empty buffer with no
error and no pixel written. -/
theorem toast_degenerate_empty (w h rad : ℤ) (hdeg : w ≤ 0 ∨ h ≤ 0) :
    mgba_toast_background w h rad = [] := by
  simp only [mgba_toast_background, if_pos hdeg]

theorem toast_degenerate_empty_witness :
    mgba_toast_background 0 7 3 = [] :=
  toast_degenerate_empty 0 7 3 (Or.inl (by norm_num))

/-- Claim C8: with `radius <= 0` the rounded-rect fill issues exactly one
solid rectangle with the caller's color, so it paints the same pixel
set, in the same color, as a plain filled rectangle at `(x, y, w, h)`. -/
theorem rounded_fill_radius_nonpos_plain_rect (x y w h rad : ℤ) (r g b a : ℕ)
    (hrad : rad ≤ 0) :
    renderer_fill_rounded_rect x y w h rad r g b a
        = ((r, g, b, a), [SDLPrim.fillRect x y w h]) ∧
    ∀ p : ℤ × ℤ, paintedBy (fillRoundedRectPrims x y w h rad) p
        = primPaints (SDLPrim.fillRect x y w h) p := by
  refine ⟨?_, fun p => ?_⟩
  · simp [renderer_fill_rounded_rect, fillRoundedRectPrims, if_pos hrad]
  · simp [paintedBy, fillRoundedRectPrims, if_pos hrad]

theorem rounded_fill_radius_nonpos_plain_rect_witness :
    renderer_fill_rounded_rect 0 0 10 10 0 200 10 20 255
        = ((200, 10, 20, 255), [SDLPrim.fillRect 0 0 10 10]) ∧
    paintedBy (fillRoundedRectPrims 0 0 10 10 0) (3, 4)
        = primPaints (SDLPrim.fillRect 0 0 10 10) (3, 4) := by
  have h := rounded_fill_radius_nonpos_plain_rect 0 0 10 10 0 200 10 20 255 (by norm_num)
  exact ⟨h.1, h.2 (3, 4)⟩

/-- Claim C9, counterexample: `rasterize_rounded_rect_fill(0,0,4,4,100,c)`
leaves pixel `(0,0)` of the 4×4 region unwritten (no emitted rectangle or
span covers it), so "no pixel unwritten inside the 4×4 region" is false
as stated. -/
theorem rounded_fill_4x4_corner_unpainted :
    paintedBy (fillRoundedRectPrims 0 0 4 4 100) (0, 0) = false := by
  decide

/-- Claim C9, amended: `rasterize_rounded_rect_fill(0,0,4,4,100,c)` clamps
the radius to 2, emits no sub-rectangle of negative width or height and
no reversed span, and paints every pixel of the 4×4 region except the
four corner pixels `(0,0)`, `(3,0)`, `(0,3)`, `(3,3)` (which lie outside
the rounded shape). -/
theorem rounded_fill_4x4_amended :
    fillRoundedRectRad 4 4 100 = 2 ∧
    (∀ pr ∈ fillRoundedRectPrims 0 0 4 4 100, primWellSized pr = true) ∧
    (∀ px ∈ List.range 4, ∀ py ∈ List.range 4,
        ¬ ((px = 0 ∨ px = 3) ∧ (py = 0 ∨ py = 3)) →
        paintedBy (fillRoundedRectPrims 0 0 4 4 100) ((px : ℤ), (py : ℤ)) = true) := by
  decide

/-! ### Compositor band lemmas -/

theorem le_truncU8 (x : ℝ) (n : ℕ) (h : (n : ℝ) ≤ x) : n ≤ truncU8 x := by
  unfold truncU8
  have hf : (n : ℤ) ≤ Int.floor x := Int.le_floor.2 (by exact_mod_cast h)
  omega

theorem truncU8_lt (x : ℝ) (n : ℕ) (hn : 0 < n) (h : x < n) : truncU8 x < n := by
  unfold truncU8
  have hf : Int.floor x < (n : ℤ) := Int.floor_lt.2 (by exact_mod_cast h)
  omega

theorem toastComposite_transparent (d : ℝ) (hd : d ≥ 1.2 * 0.5) :
    toastComposite d = 0 := by
  simp only [toastComposite]
  rw [if_pos hd]

theorem toastComposite_fill (d : ℝ) (hd : d ≤ -(1.5 + 1.2 * 0.5)) :
    toastComposite d = toast_argb 180 20 20 28 := by
  have h1 : ¬ d ≥ 1.2 * 0.5 := by push_neg; linarith
  have h2 : ¬ d ≥ -1.2 * 0.5 := by push_neg; linarith
  have h3 : ¬ d ≥ -(1.5 - 1.2 * 0.5) := by push_neg; linarith
  rcases hd.lt_or_eq with hlt | heq
  · have h4 : ¬ d ≥ -(1.5 + 1.2 * 0.5) := by push_neg; linarith
    simp only [toastComposite]
    rw [if_neg h1, if_neg h2, if_neg h3, if_neg h4]
  · have h4 : d ≥ -(1.5 + 1.2 * 0.5) := le_of_eq heq.symm
    simp only [toastComposite]
    rw [if_neg h1, if_neg h2, if_neg h3, if_pos h4]
    have ht : (d + 1.5 + 1.2 * 0.5) / 1.2 = 0 := by rw [heq]; norm_num
    rw [ht]
    rw [truncU8_eq _ 180 (by push_cast; norm_num) (by push_cast; norm_num),
      truncU8_eq _ 20 (by push_cast; norm_num) (by push_cast; norm_num),
      truncU8_eq _ 20 (by push_cast; norm_num) (by push_cast; norm_num),
      truncU8_eq _ 28 (by push_cast; norm_num) (by push_cast; norm_num)]

theorem toastComposite_cases (d : ℝ) :
    toastComposite d = 0 ∨
    ∃ a r g b : ℕ, 8 ≤ a ∧ a < 256 ∧ r < 256 ∧ g < 256 ∧ b < 256 ∧
      toastComposite d = toast_argb a r g b := by
  simp only [toastComposite]
  split_ifs with h1 h2 h3 h4 h5
  · exact Or.inl rfl
  · exact Or.inl rfl
  · refine Or.inr ⟨_, 100, 110, 140, by omega, ?_, by norm_num, by norm_num, by norm_num, rfl⟩
    have hu : -0.5 ≤ d / 1.2 := by
      rw [le_div_iff₀ (show (0:ℝ) < 1.2 by norm_num)]
      linarith
    refine truncU8_lt _ 256 (by norm_num) ?_
    push_cast
    linarith
  · exact Or.inr ⟨210, 100, 110, 140, by norm_num, by norm_num, by norm_num, by norm_num,
      by norm_num, rfl⟩
  · have ht0 : 0 ≤ (d + 1.5 + 1.2 * 0.5) / 1.2 := by
      apply div_nonneg _ (by norm_num)
      linarith
    have ht1 : (d + 1.5 + 1.2 * 0.5) / 1.2 < 1 := by
      rw [div_lt_one (by norm_num)]
      push_neg at h4
      linarith
    refine Or.inr ⟨_, _, _, _, ?_, ?_, ?_, ?_, ?_, rfl⟩
    · exact le_truncU8 _ 8 (by push_cast; linarith)
    · exact truncU8_lt _ 256 (by norm_num) (by push_cast; linarith)
    · exact truncU8_lt _ 256 (by norm_num) (by push_cast; linarith)
    · exact truncU8_lt _ 256 (by norm_num) (by push_cast; linarith)
    · exact truncU8_lt _ 256 (by norm_num) (by push_cast; linarith)
  · exact Or.inr ⟨180, 20, 20, 28, by norm_num, by norm_num, by norm_num, by norm_num,
      by norm_num, rfl⟩

/-! ### Geometry kernel evaluation lemmas -/

theorem distCode_of_nonpos (qx qy frad : ℝ) (hx : qx ≤ 0) (hy : qy ≤ 0) :
    distCode qx qy frad = max qx qy - frad := by
  simp only [distCode]
  rw [max_eq_right hx, max_eq_right hy]
  norm_num [Real.sqrt_zero]

theorem distCode_of_pos (qx qy frad : ℝ) (h : 0 < qx ∨ 0 < qy) :
    distCode qx qy frad
      = Real.sqrt (max qx 0 * max qx 0 + max qy 0 * max qy 0) - frad := by
  simp only [distCode]
  have harg : 0 < max qx 0 * max qx 0 + max qy 0 * max qy 0 := by
    rcases h with h | h
    · have h1 : 0 < max qx 0 := lt_max_iff.2 (Or.inl h)
      have h2 : 0 ≤ max qy 0 := le_max_right qy 0
      nlinarith
    · have h1 : 0 < max qy 0 := lt_max_iff.2 (Or.inl h)
      have h2 : 0 ≤ max qx 0 := le_max_right qx 0
      nlinarith
  rw [if_pos (Real.sqrt_pos.2 harg)]
  ring

/-! ### Claim theorems: compositor-level properties -/

/-- Claim C1: every pixel whose signed distance satisfies
`dist <= -(border_width + aa_width/2)` gets exactly the packed fill
color `(A=180, R=20, G=20, B=28)`; at the band boundary
`dist = -(border_width + aa_width/2)` the inner-fringe interpolation
runs with `t = 0` and round-half-up rounding and yields the same word. -/
theorem toast_fill_interior_exact (w h rad : ℤ) (px py : ℕ)
    (_hw : 0 < w) (_hh : 0 < h) (_hpx : px < w.toNat) (_hpy : py < h.toNat)
    (hd : toastDist w h rad px py ≤ -(1.5 + 1.2 / 2)) :
    toastPixel w h rad px py = toast_argb 180 20 20 28 := by
  unfold toastPixel
  exact toastComposite_fill _ (by linarith)

/-- Claim C2: every pixel whose signed distance satisfies
`dist >= aa_width/2` has packed value 0 (fully transparent, RGB zero). -/
theorem toast_exterior_transparent (w h rad : ℤ) (px py : ℕ)
    (_hw : 0 < w) (_hh : 0 < h) (_hpx : px < w.toNat) (_hpy : py < h.toNat)
    (hd : 1.2 / 2 ≤ toastDist w h rad px py) :
    toastPixel w h rad px py = 0 := by
  unfold toastPixel
  exact toastComposite_transparent _ (by linarith)

/-- Claim C10: no pixel of the toast-background output carries an alpha
value in `1..7`: the alpha channel is either 0 or at least 8 (the
outer-fringe suppression threshold; all other bands emit alpha in
`180..210`). -/
theorem toast_alpha_visibility_floor (w h rad : ℤ) (px py : ℕ)
    (_hw : 0 < w) (_hh : 0 < h) (_hpx : px < w.toNat) (_hpy : py < h.toNat) :
    argb_alpha (toastPixel w h rad px py) = 0
      ∨ 8 ≤ argb_alpha (toastPixel w h rad px py) := by
  unfold toastPixel
  rcases toastComposite_cases (toastDist w h rad px py) with h0 |
    ⟨a, r, g, b, h8, ha, hr, hg, hb, heq⟩
  · left
    rw [h0]
    rfl
  · right
    rw [heq, argb_alpha_toast_argb a r g b hr hg hb]
    exact h8

theorem toast_alpha_visibility_floor_witness :
    argb_alpha (toastPixel 1 1 0 0 0) = 0 ∨ 8 ≤ argb_alpha (toastPixel 1 1 0 0 0) :=
  toast_alpha_visibility_floor 1 1 0 0 0 (by norm_num) (by norm_num)
    (by norm_num) (by norm_num)

theorem toast_fill_interior_exact_witness :
    toastDist 20 20 0 10 10 ≤ -(1.5 + 1.2 / 2) ∧
    toastPixel 20 20 0 10 10 = toast_argb 180 20 20 28 := by
  have hclamp : toastRadClamp 20 20 0 = 0 := by decide
  have hq : foldQ ((20 : ℤ) : ℝ) ((0 : ℤ) : ℝ) 10 = -(19 / 2) := by
    unfold foldQ
    rw [show ((10 : ℕ) : ℝ) + 0.5 - ((20 : ℤ) : ℝ) * 0.5 = 1 / 2 by push_cast; norm_num]
    rw [abs_of_pos (by norm_num)]
    push_cast
    norm_num
  have hd : toastDist 20 20 0 10 10 ≤ -(1.5 + 1.2 / 2) := by
    simp only [toastDist, hclamp, hq]
    rw [distCode_of_nonpos _ _ _ (by norm_num) (by norm_num)]
    push_cast
    norm_num
  exact ⟨hd, toast_fill_interior_exact 20 20 0 10 10 (by norm_num) (by norm_num)
    (by norm_num) (by norm_num) hd⟩

theorem toast_exterior_transparent_witness :
    1.2 / 2 ≤ toastDist 20 20 8 0 0 ∧ toastPixel 20 20 8 0 0 = 0 := by
  have hclamp : toastRadClamp 20 20 8 = 8 := by decide
  have hq : foldQ ((20 : ℤ) : ℝ) ((8 : ℤ) : ℝ) 0 = 15 / 2 := by
    unfold foldQ
    rw [show ((0 : ℕ) : ℝ) + 0.5 - ((20 : ℤ) : ℝ) * 0.5 = -(19 / 2) by push_cast; norm_num]
    rw [abs_of_nonpos (by norm_num)]
    push_cast
    norm_num
  have hd : 1.2 / 2 ≤ toastDist 20 20 8 0 0 := by
    simp only [toastDist, hclamp, hq]
    rw [distCode_of_pos _ _ _ (Or.inl (by norm_num))]
    rw [max_eq_left (by norm_num : (0:ℝ) ≤ 15 / 2)]
    have hsq : (8.6 : ℝ) ≤ Real.sqrt (15 / 2 * (15 / 2) + 15 / 2 * (15 / 2)) := by
      rw [Real.le_sqrt (by norm_num) (by norm_num)]
      norm_num
    push_cast
    linarith
  exact ⟨hd, toast_exterior_transparent 20 20 8 0 0 (by norm_num) (by norm_num)
    (by norm_num) (by norm_num) hd⟩

/-! ### Buffer layout helpers -/

theorem toastRows_length (f : ℕ → ℕ → ℕ) (W H : ℕ) :
    ((List.range H).flatMap fun py => (List.range W).map fun px => f px py).length
      = H * W := by
  induction H with
  | zero => simp
  | succ H ih =>
    rw [List.range_succ, List.flatMap_append]
    simp [ih, Nat.succ_mul]

theorem toastRows_get (f : ℕ → ℕ → ℕ) (W H px py : ℕ) (hpx : px < W) (hpy : py < H) :
    ((List.range H).flatMap fun py => (List.range W).map fun px => f px py)[py * W + px]?
      = some (f px py) := by
  induction H with
  | zero => omega
  | succ H ih =>
    rw [List.range_succ, List.flatMap_append]
    rcases Nat.lt_or_ge py H with hlt | hge
    · rw [List.getElem?_append_left]
      · exact ih hlt
      · rw [toastRows_length]
        calc py * W + px < py * W + W := by omega
          _ = (py + 1) * W := by ring
          _ ≤ H * W := Nat.mul_le_mul_right W hlt
    · have hpyH : py = H := by omega
      subst hpyH
      rw [List.getElem?_append_right]
      · rw [toastRows_length]
        simp only [List.flatMap_cons, List.flatMap_nil, List.append_nil]
        have hidx : py * W + px - py * W = px := by omega
        rw [hidx, List.getElem?_map, List.getElem?_range hpx]
        rfl
      · rw [toastRows_length]
        exact Nat.le_add_right _ _

theorem toastBuffer_eq (w h rad : ℤ) (hw : 0 < w) (hh : 0 < h) :
    mgba_toast_background w h rad
      = (List.range h.toNat).flatMap fun py =>
          (List.range w.toNat).map fun px => toastPixel w h rad px py := by
  simp only [mgba_toast_background]
  rw [if_neg]
  rintro (hc | hc) <;> omega

theorem toastPixel_lt_two_pow_32 (w h rad : ℤ) (px py : ℕ) :
    toastPixel w h rad px py < 2 ^ 32 := by
  unfold toastPixel
  rcases toastComposite_cases (toastDist w h rad px py) with h0 |
    ⟨a, r, g, b, _, ha, hr, hg, hb, heq⟩
  · rw [h0]; norm_num
  · rw [heq]; exact toast_argb_lt_two_pow_32 a r g b ha hr hg hb

/-- Claim C6: for positive sizes the output is one packed 32-bit ARGB word
(4 bytes) per pixel, `w*h` words in all, the word for `(px, py)` stored
at flat index `py * w + px`. -/
theorem toast_buffer_layout (w h rad : ℤ) (hw : 0 < w) (hh : 0 < h) :
    (mgba_toast_background w h rad).length = w.toNat * h.toNat ∧
    ∀ px py : ℕ, px < w.toNat → py < h.toNat →
      (mgba_toast_background w h rad)[py * w.toNat + px]?
          = some (toastPixel w h rad px py) ∧
      toastPixel w h rad px py < 2 ^ 32 := by
  refine ⟨?_, fun px py hpx hpy => ⟨?_, toastPixel_lt_two_pow_32 w h rad px py⟩⟩
  · rw [toastBuffer_eq w h rad hw hh, toastRows_length, Nat.mul_comm]
  · rw [toastBuffer_eq w h rad hw hh, toastRows_get _ _ _ _ _ hpx hpy]

theorem toast_buffer_layout_witness :
    (mgba_toast_background 2 3 0).length = (2 : ℤ).toNat * (3 : ℤ).toNat ∧
    ((mgba_toast_background 2 3 0)[2 * (2 : ℤ).toNat + 1]?
        = some (toastPixel 2 3 0 1 2) ∧
      toastPixel 2 3 0 1 2 < 2 ^ 32) :=
  ⟨(toast_buffer_layout 2 3 0 (by norm_num) (by norm_num)).1,
   (toast_buffer_layout 2 3 0 (by norm_num) (by norm_num)).2 1 2
     (by norm_num) (by norm_num)⟩

/-! ### Mirror symmetry -/

theorem foldQ_mirror (n : ℕ) (frad : ℝ) (p : ℕ) (hp : p < n) :
    foldQ (n : ℝ) frad (n - 1 - p) = foldQ (n : ℝ) frad p := by
  unfold foldQ
  congr 1
  have h1 : ((n - 1 - p : ℕ) : ℝ) = (n : ℝ) - 1 - p := by
    have h2 : n - 1 - p = n - (1 + p) := by omega
    rw [h2, Nat.cast_sub (by omega : 1 + p ≤ n)]
    push_cast
    ring
  rw [h1, show (n : ℝ) - 1 - p + 0.5 - (n : ℝ) * 0.5
      = -(((p : ℝ) + 0.5) - (n : ℝ) * 0.5) by ring, abs_neg]

theorem toastDist_mirror_x (w h rad : ℤ) (px py : ℕ) (hw : 0 < w)
    (hpx : px < w.toNat) :
    toastDist w h rad (w.toNat - 1 - px) py = toastDist w h rad px py := by
  have hcast : ((w : ℤ) : ℝ) = ((w.toNat : ℕ) : ℝ) := by
    rw [← Int.cast_natCast, Int.toNat_of_nonneg hw.le]
  simp only [toastDist]
  rw [hcast, foldQ_mirror w.toNat _ px hpx]

theorem toastDist_mirror_y (w h rad : ℤ) (px py : ℕ) (hh : 0 < h)
    (hpy : py < h.toNat) :
    toastDist w h rad px (h.toNat - 1 - py) = toastDist w h rad px py := by
  have hcast : ((h : ℤ) : ℝ) = ((h.toNat : ℕ) : ℝ) := by
    rw [← Int.cast_natCast, Int.toNat_of_nonneg hh.le]
  simp only [toastDist]
  rw [hcast, foldQ_mirror h.toNat _ py hpy]

/-- Claim C5: the toast-background output is invariant under horizontal
and vertical mirroring: the packed word stored for `(px, py)` equals the
ones stored for `(w-1-px, py)` and `(px, h-1-py)`. -/
theorem toast_mirror_symmetry (w h rad : ℤ) (px py : ℕ)
    (hw : 0 < w) (hh : 0 < h) (hpx : px < w.toNat) (hpy : py < h.toNat) :
    (mgba_toast_background w h rad)[py * w.toNat + px]?
        = (mgba_toast_background w h rad)[py * w.toNat + (w.toNat - 1 - px)]? ∧
    (mgba_toast_background w h rad)[py * w.toNat + px]?
        = (mgba_toast_background w h rad)[(h.toNat - 1 - py) * w.toNat + px]? := by
  rw [toastBuffer_eq w h rad hw hh,
    toastRows_get _ _ _ _ _ hpx hpy,
    toastRows_get _ _ _ _ _ (by omega : w.toNat - 1 - px < w.toNat) hpy,
    toastRows_get _ _ _ _ _ hpx (by omega : h.toNat - 1 - py < h.toNat)]
  constructor
  · rw [show toastPixel w h rad (w.toNat - 1 - px) py = toastPixel w h rad px py from by
      unfold toastPixel; rw [toastDist_mirror_x w h rad px py hw hpx]]
  · rw [show toastPixel w h rad px (h.toNat - 1 - py) = toastPixel w h rad px py from by
      unfold toastPixel; rw [toastDist_mirror_y w h rad px py hh hpy]]

theorem toast_mirror_symmetry_witness :
    (mgba_toast_background 5 4 2)[1 * (5 : ℤ).toNat + 1]?
        = (mgba_toast_background 5 4 2)[1 * (5 : ℤ).toNat + ((5 : ℤ).toNat - 1 - 1)]? ∧
    (mgba_toast_background 5 4 2)[1 * (5 : ℤ).toNat + 1]?
        = (mgba_toast_background 5 4 2)[((4 : ℤ).toNat - 1 - 1) * (5 : ℤ).toNat + 1]? :=
  toast_mirror_symmetry 5 4 2 1 1 (by norm_num) (by norm_num)
    (by norm_num) (by norm_num)

/-! ### SDF refinement and topology -/

theorem coreDist_pos (qx qy : ℝ) (h : 0 < qx ∨ 0 < qy) : 0 < coreDist qx qy := by
  unfold coreDist
  apply Real.sqrt_pos.2
  rcases h with h | h
  · have h1 : 0 < max qx 0 := lt_max_iff.2 (Or.inl h)
    nlinarith [sq_nonneg (max qy 0)]
  · have h1 : 0 < max qy 0 := lt_max_iff.2 (Or.inl h)
    nlinarith [sq_nonneg (max qx 0)]

theorem coreDist_of_nonpos (qx qy : ℝ) (hx : qx ≤ 0) (hy : qy ≤ 0) :
    coreDist qx qy = 0 := by
  unfold coreDist
  rw [max_eq_right hx, max_eq_right hy]
  norm_num

theorem distCode_of_pos_coreDist (qx qy frad : ℝ) (h : 0 < qx ∨ 0 < qy) :
    distCode qx qy frad = coreDist qx qy - frad := by
  rw [distCode_of_pos qx qy frad h]
  unfold coreDist
  rw [show max qx 0 * max qx 0 + max qy 0 * max qy 0
      = max qx 0 ^ 2 + max qy 0 ^ 2 by ring]

theorem distCode_eq_distSpecFormula (qx qy frad : ℝ) :
    distCode qx qy frad = distSpecFormula qx qy frad := by
  by_cases hpos : 0 < qx ∨ 0 < qy
  · rw [distCode_of_pos qx qy frad hpos]
    unfold distSpecFormula
    have hmx : 0 < max qx qy := by
      rcases hpos with h | h
      · exact lt_max_iff.2 (Or.inl h)
      · exact lt_max_iff.2 (Or.inr h)
    rw [min_eq_right hmx.le,
      show max qx 0 * max qx 0 + max qy 0 * max qy 0
        = max qx 0 ^ 2 + max qy 0 ^ 2 by ring]
    ring
  · push_neg at hpos
    rw [distCode_of_nonpos qx qy frad hpos.1 hpos.2]
    unfold distSpecFormula
    rw [max_eq_right hpos.1, max_eq_right hpos.2,
      show (0 : ℝ) ^ 2 + (0 : ℝ) ^ 2 = 0 by norm_num, Real.sqrt_zero,
      min_eq_left (max_le hpos.1 hpos.2)]
    ring

theorem distCode_neg_iff (qx qy frad : ℝ) (hf : 0 ≤ frad) :
    distCode qx qy frad < 0 ↔ insideRoundedBox qx qy frad := by
  by_cases hpos : 0 < qx ∨ 0 < qy
  · rw [distCode_of_pos_coreDist qx qy frad hpos]
    unfold insideRoundedBox
    constructor
    · intro hlt
      left
      linarith
    · rintro (hc | ⟨hx, hy⟩)
      · linarith
      · rcases hpos with h | h <;> linarith
  · push_neg at hpos
    rw [distCode_of_nonpos qx qy frad hpos.1 hpos.2]
    unfold insideRoundedBox
    rw [coreDist_of_nonpos qx qy hpos.1 hpos.2]
    constructor
    · intro hlt
      rcases eq_or_lt_of_le hf with hf0 | hf0
      · right
        constructor
        · have := le_max_left qx qy
          linarith
        · have := le_max_right qx qy
          linarith
      · exact Or.inl hf0
    · rintro (hc | ⟨hx, hy⟩)
      · have := max_le hpos.1 hpos.2
        linarith
      · have := max_lt hx hy
        linarith

theorem distCode_pos_iff (qx qy frad : ℝ) (hf : 0 ≤ frad) :
    0 < distCode qx qy frad ↔ outsideRoundedBox qx qy frad := by
  by_cases hpos : 0 < qx ∨ 0 < qy
  · rw [distCode_of_pos_coreDist qx qy frad hpos]
    unfold outsideRoundedBox
    constructor <;> intro <;> linarith
  · push_neg at hpos
    rw [distCode_of_nonpos qx qy frad hpos.1 hpos.2]
    unfold outsideRoundedBox
    rw [coreDist_of_nonpos qx qy hpos.1 hpos.2]
    constructor
    · intro h0
      have := max_le hpos.1 hpos.2
      linarith
    · intro hc
      linarith

theorem distCode_zero_iff (qx qy frad : ℝ) (hf : 0 ≤ frad) :
    distCode qx qy frad = 0 ↔ onRoundedBoxBoundary qx qy frad := by
  have h1 := distCode_neg_iff qx qy frad hf
  have h2 := distCode_pos_iff qx qy frad hf
  unfold onRoundedBoxBoundary
  constructor
  · intro h0
    constructor
    · have hno : ¬ outsideRoundedBox qx qy frad := by
        rw [← h2, h0]
        norm_num
      unfold outsideRoundedBox at hno
      linarith
    · rw [← h1, h0]
      norm_num
  · rintro ⟨hle, hnin⟩
    have hnneg : ¬ distCode qx qy frad < 0 := by
      rw [h1]
      exact hnin
    have hnpos : ¬ 0 < distCode qx qy frad := by
      rw [h2]
      unfold outsideRoundedBox
      push_neg
      exact hle
    linarith

theorem toastRadClamp_nonneg (w h rad : ℤ) (hw : 0 < w) (hh : 0 < h) :
    0 ≤ toastRadClamp w h rad := by
  rw [toastRadClamp_eq w h rad hw hh]
  omega

/-- Claim C3: the per-pixel signed distance computed by the code equals
the standard exact rounded-box SDF formula
`length(max(qx,0), max(qy,0)) + min(max(qx,qy), 0) − radius` at every
pixel center and shape, and it classifies the plane exactly: negative
strictly inside the rounded boundary, zero exactly on it, positive
strictly outside. -/
theorem toast_sdf_spec_topology (w h rad : ℤ) (px py : ℕ)
    (hw : 0 < w) (hh : 0 < h) :
    toastDist w h rad px py
        = distSpecFormula (foldQ (w : ℝ) ((toastRadClamp w h rad : ℤ) : ℝ) px)
            (foldQ (h : ℝ) ((toastRadClamp w h rad : ℤ) : ℝ) py)
            ((toastRadClamp w h rad : ℤ) : ℝ) ∧
    (toastDist w h rad px py < 0
        ↔ insideRoundedBox (foldQ (w : ℝ) ((toastRadClamp w h rad : ℤ) : ℝ) px)
            (foldQ (h : ℝ) ((toastRadClamp w h rad : ℤ) : ℝ) py)
            ((toastRadClamp w h rad : ℤ) : ℝ)) ∧
    (toastDist w h rad px py = 0
        ↔ onRoundedBoxBoundary (foldQ (w : ℝ) ((toastRadClamp w h rad : ℤ) : ℝ) px)
            (foldQ (h : ℝ) ((toastRadClamp w h rad : ℤ) : ℝ) py)
            ((toastRadClamp w h rad : ℤ) : ℝ)) ∧
    (0 < toastDist w h rad px py
        ↔ outsideRoundedBox (foldQ (w : ℝ) ((toastRadClamp w h rad : ℤ) : ℝ) px)
            (foldQ (h : ℝ) ((toastRadClamp w h rad : ℤ) : ℝ) py)
            ((toastRadClamp w h rad : ℤ) : ℝ)) := by
  have hf : (0 : ℝ) ≤ ((toastRadClamp w h rad : ℤ) : ℝ) := by
    exact_mod_cast toastRadClamp_nonneg w h rad hw hh
  simp only [toastDist]
  exact ⟨distCode_eq_distSpecFormula _ _ _, distCode_neg_iff _ _ _ hf,
    distCode_zero_iff _ _ _ hf, distCode_pos_iff _ _ _ hf⟩

theorem toast_sdf_spec_topology_witness :
    toastDist 2 2 1 0 0
        = distSpecFormula (foldQ ((2 : ℤ) : ℝ) ((toastRadClamp 2 2 1 : ℤ) : ℝ) 0)
            (foldQ ((2 : ℤ) : ℝ) ((toastRadClamp 2 2 1 : ℤ) : ℝ) 0)
            ((toastRadClamp 2 2 1 : ℤ) : ℝ) ∧
    (toastDist 2 2 1 0 0 < 0
        ↔ insideRoundedBox (foldQ ((2 : ℤ) : ℝ) ((toastRadClamp 2 2 1 : ℤ) : ℝ) 0)
            (foldQ ((2 : ℤ) : ℝ) ((toastRadClamp 2 2 1 : ℤ) : ℝ) 0)
            ((toastRadClamp 2 2 1 : ℤ) : ℝ)) ∧
    (toastDist 2 2 1 0 0 = 0
        ↔ onRoundedBoxBoundary (foldQ ((2 : ℤ) : ℝ) ((toastRadClamp 2 2 1 : ℤ) : ℝ) 0)
            (foldQ ((2 : ℤ) : ℝ) ((toastRadClamp 2 2 1 : ℤ) : ℝ) 0)
            ((toastRadClamp 2 2 1 : ℤ) : ℝ)) ∧
    (0 < toastDist 2 2 1 0 0
        ↔ outsideRoundedBox (foldQ ((2 : ℤ) : ℝ) ((toastRadClamp 2 2 1 : ℤ) : ℝ) 0)
            (foldQ ((2 : ℤ) : ℝ) ((toastRadClamp 2 2 1 : ℤ) : ℝ) 0)
            ((toastRadClamp 2 2 1 : ℤ) : ℝ)) :=
  toast_sdf_spec_topology 2 2 1 0 0 (by norm_num) (by norm_num)
